import Mathlib

/-!
Verification of the QuickMail client (quickmail.go) against its
natural-language specification.

Go strings are byte sequences; we embed them as `List Nat` with every byte
below 256.  The encoder path of `encodeMIMESubject` calls
`mime.BEncoding.Encode("UTF-8", input)` from the Go standard library, so
that function (its `needsEncoding` test, UTF-8 rune decoding, base64, and
the 75-byte encoded-word splitting) is embedded here as well, byte for
byte after the Go sources.  The network submission path (`sendMail`,
`uploadMessage`) is embedded as a pure function over an environment
recording the outcome of each external effect, together with the list of
network requests it issues.
-/

namespace QuickMail

/-- Embeds `utf8.DecodeRuneInString`: returns the first rune of the byte
list together with the number of bytes it occupies.  Invalid encodings
(bad leading byte, bad continuation byte, overlong form, surrogate,
or truncated sequence) yield `(0xFFFD, 1)`; the empty list yields
`(0xFFFD, 0)`, exactly as in Go. -/
def decodeRune : List Nat → Nat × Nat
  | [] => (0xFFFD, 0)
  | b0 :: rest =>
    if b0 < 0x80 then (b0, 1)
    else if b0 < 0xC2 then (0xFFFD, 1)
    else if b0 < 0xE0 then
      match rest with
      | b1 :: _ =>
        if 0x80 ≤ b1 ∧ b1 ≤ 0xBF then ((b0 - 0xC0) * 64 + (b1 - 0x80), 2)
        else (0xFFFD, 1)
      | [] => (0xFFFD, 1)
    else if b0 < 0xF0 then
      match rest with
      | b1 :: b2 :: _ =>
        let lo := if b0 = 0xE0 then 0xA0 else 0x80
        let hi := if b0 = 0xED then 0x9F else 0xBF
        if lo ≤ b1 ∧ b1 ≤ hi ∧ 0x80 ≤ b2 ∧ b2 ≤ 0xBF then
          ((b0 - 0xE0) * 4096 + (b1 - 0x80) * 64 + (b2 - 0x80), 3)
        else (0xFFFD, 1)
      | _ => (0xFFFD, 1)
    else if b0 < 0xF5 then
      match rest with
      | b1 :: b2 :: b3 :: _ =>
        let lo := if b0 = 0xF0 then 0x90 else 0x80
        let hi := if b0 = 0xF4 then 0x8F else 0xBF
        if lo ≤ b1 ∧ b1 ≤ hi ∧ 0x80 ≤ b2 ∧ b2 ≤ 0xBF ∧ 0x80 ≤ b3 ∧ b3 ≤ 0xBF then
          ((b0 - 0xF0) * 262144 + (b1 - 0x80) * 4096 + (b2 - 0x80) * 64 + (b3 - 0x80), 4)
        else (0xFFFD, 1)
      | _ => (0xFFFD, 1)
    else (0xFFFD, 1)

/-- Embeds `base64.StdEncoding.EncodedLen`. -/
def encodedLen (n : Nat) : Nat := (n + 2) / 3 * 4

/-- Byte of the standard base64 alphabet at index `i` (for `i < 64`). -/
def b64Index (i : Nat) : Nat :=
  if i < 26 then 65 + i
  else if i < 52 then 97 + (i - 26)
  else if i < 62 then 48 + (i - 52)
  else if i = 62 then 43
  else 47

/-- Embeds `base64.StdEncoding.EncodeToString` on bytes, including the
`=` padding of the final quantum. -/
def base64Encode : List Nat → List Nat
  | [] => []
  | [a] => [b64Index (a / 4), b64Index (a % 4 * 16), 61, 61]
  | [a, b] => [b64Index (a / 4), b64Index (a % 4 * 16 + b / 16), b64Index (b % 16 * 4), 61]
  | a :: b :: c :: rest =>
      b64Index (a / 4) :: b64Index (a % 4 * 16 + b / 16) ::
      b64Index (b % 16 * 4 + c / 64) :: b64Index (c % 64) :: base64Encode rest

/-- Embeds `mime.needsEncoding`: true when some rune of the string lies
outside printable ASCII (space..tilde) and is not a tab.  The Go loop
ranges over runes, so the iteration advances by `decodeRune` sizes. -/
def needsEncoding : List Nat → Bool
  | [] => false
  | b :: rest =>
    if ((decodeRune (b :: rest)).1 < 32 ∨ 126 < (decodeRune (b :: rest)).1) ∧
        (decodeRune (b :: rest)).1 ≠ 9 then true
    else needsEncoding ((b :: rest).drop (decodeRune (b :: rest)).2)
termination_by s => s.length
decreasing_by
  have key : ∀ (b : Nat) (rest : List Nat),
      ((b :: rest).drop (decodeRune (b :: rest)).2).length < (b :: rest).length := by
    intro b rest
    have h : 1 ≤ (decodeRune (b :: rest)).2 := by
      rcases rest with _ | ⟨b1, _ | ⟨b2, _ | ⟨b3, r⟩⟩⟩ <;>
        · simp only [decodeRune]
          split_ifs <;> simp
    simp only [List.length_drop, List.length_cons]
    omega
  exact key _ _

/-- The bytes of the encoded-word opener `=?UTF-8?B?`. -/
def openWordB : List Nat := [61, 63, 85, 84, 70, 45, 56, 63, 66, 63]

/-- Bytes written by `WordEncoder.splitWord` between two encoded words:
`?=` + space + `=?UTF-8?B?`. -/
def splitSepB : List Nat := [63, 61, 32] ++ openWordB

/-- Embeds the chunking loop of `WordEncoder.bEncode`: greedily pack runes
into the current chunk while the base64 length of the grown chunk stays
within `maxContentLen("UTF-8") = 63`; a rune that would overflow starts a
new chunk (runes are never split, per RFC 2047 section 5.3). -/
def bSplit : List Nat → List Nat → List (List Nat)
  | [], cur => [cur]
  | b :: rest, cur =>
    if encodedLen (cur.length + (decodeRune (b :: rest)).2) ≤ 63 then
      bSplit ((b :: rest).drop (decodeRune (b :: rest)).2)
        (cur ++ (b :: rest).take (decodeRune (b :: rest)).2)
    else
      cur :: bSplit ((b :: rest).drop (decodeRune (b :: rest)).2)
        ((b :: rest).take (decodeRune (b :: rest)).2)
termination_by s _ => s.length
decreasing_by
  all_goals
    have key : ∀ (b : Nat) (rest : List Nat),
        ((b :: rest).drop (decodeRune (b :: rest)).2).length < (b :: rest).length := by
      intro b rest
      have h : 1 ≤ (decodeRune (b :: rest)).2 := by
        rcases rest with _ | ⟨b1, _ | ⟨b2, _ | ⟨b3, r⟩⟩⟩ <;>
          · simp only [decodeRune]
            split_ifs <;> simp
      simp only [List.length_drop, List.length_cons]
      omega
    exact key _ _

/-- Concatenation of a list of byte lists with a separator between
consecutive elements (the emission order of the `bEncode` loop). -/
def joinSep (sep : List Nat) : List (List Nat) → List Nat
  | [] => []
  | [w] => w
  | w :: ws => w ++ sep ++ joinSep sep ws

/-- Embeds `WordEncoder.bEncode` for charset `UTF-8`: short content is a
single base64 run; long content is split into chunks joined by
`?= =?UTF-8?B?`. -/
def bEncode (s : List Nat) : List Nat :=
  if encodedLen s.length ≤ 63 then base64Encode s
  else joinSep splitSepB ((bSplit s []).map base64Encode)

/-- Embeds `WordEncoder.encodeWord` for `BEncoding`/`UTF-8`: opener,
base64 body (possibly pre-split into words), closer. -/
def encodeWord (s : List Nat) : List Nat := openWordB ++ bEncode s ++ [63, 61]

/-- Embeds `mime.BEncoding.Encode("UTF-8", s)`: returned unmodified when
no rune needs encoding, otherwise the encoded-word form. -/
def mimeEncode (s : List Nat) : List Nat :=
  if needsEncoding s then encodeWord s else s

/-- Embeds `strings.Split(s, "?=")`: split around each non-overlapping
occurrence of the two bytes `?=`, scanning left to right. -/
def splitQE : List Nat → List (List Nat)
  | [] => [[]]
  | [b] => [[b]]
  | b0 :: b1 :: rest =>
    if b0 = 63 ∧ b1 = 61 then [] :: splitQE rest
    else
      match splitQE (b1 :: rest) with
      | [] => [[b0]]
      | p :: ps => (b0 :: p) :: ps

/-- The reassembly loop of `encodeMIMESubject`: every part except the
last is emitted followed by `?=` and a newline; the last part is emitted
bare. -/
def foldParts : List (List Nat) → List Nat
  | [] => []
  | [p] => p
  | p :: ps => p ++ [63, 61, 10] ++ foldParts ps

/-- Embeds `strings.TrimSuffix(s, "\n")`. -/
def trimSuffixNL (s : List Nat) : List Nat :=
  if s.getLast? = some 10 then s.dropLast else s

/-- Embeds `encodeMIMESubject` from quickmail.go: empty input is returned
as is; otherwise the MIME-encoded string is split at `?=`, returned
unchanged if no split happened, and otherwise refolded with a newline
after each `?=` and one trailing newline trimmed. -/
def encodeMIMESubject (input : List Nat) : List Nat :=
  if input = [] then []
  else
    let encoded := mimeEncode input
    let parts := splitQE encoded
    if parts.length ≤ 1 then encoded
    else trimSuffixNL (foldParts parts)

/-- Concatenation of a list of byte lists. -/
def catList : List (List Nat) → List Nat
  | [] => []
  | l :: ls => l ++ catList ls

/-- Rewriting view of split-and-refold: insert a newline after every
non-overlapping occurrence of `?=`, scanning left to right. -/
def replaceQE : List Nat → List Nat
  | [] => []
  | [b] => [b]
  | b0 :: b1 :: rest =>
    if b0 = 63 ∧ b1 = 61 then 63 :: 61 :: 10 :: replaceQE rest
    else b0 :: replaceQE (b1 :: rest)

/-- Whether the byte list contains an occurrence of `?=`. -/
def hasQE : List Nat → Bool
  | [] => false
  | [_] => false
  | b0 :: b1 :: rest =>
    if b0 = 63 ∧ b1 = 61 then true else hasQE (b1 :: rest)

/-- Split a byte list into its lines at newline bytes. -/
def splitNL : List Nat → List (List Nat)
  | [] => [[]]
  | b :: rest =>
    if b = 10 then [] :: splitNL rest
    else
      match splitNL rest with
      | [] => [[b]]
      | p :: ps => (b :: p) :: ps

/-- Bytes that can occur in standard base64 output (alphabet plus the
`=` padding byte). -/
def isB64Byte (b : Nat) : Bool :=
  (65 ≤ b && b ≤ 90) || (97 ≤ b && b ≤ 122) || (48 ≤ b && b ≤ 57) ||
    b = 43 || b = 47 || b = 61

/-- The byte after each encoded word's closer in the folded output:
`?=`, newline, the continuation space, and the next opener. -/
def foldedSepB : List Nat := [63, 61, 10, 32] ++ openWordB

/-- The chunk list actually base64-encoded by `bEncode`: the whole string
when it is short, otherwise the rune-aligned chunks of the split loop. -/
def chunksOf (s : List Nat) : List (List Nat) :=
  if encodedLen s.length ≤ 63 then [s] else bSplit s []

/-- Value of a base64 alphabet byte (0 for bytes outside the alphabet,
which the decoder never feeds it). -/
def b64Val (c : Nat) : Nat :=
  if 65 ≤ c ∧ c ≤ 90 then c - 65
  else if 97 ≤ c ∧ c ≤ 122 then c - 71
  else if 48 ≤ c ∧ c ≤ 57 then c + 4
  else if c = 43 then 62
  else if c = 47 then 63
  else 0

/-- Standard base64 decoding of a padded base64 byte string (quanta of
four bytes; `=` padding marks a final quantum of one or two bytes). -/
def base64Decode : List Nat → List Nat
  | c0 :: c1 :: c2 :: c3 :: rest =>
    if c2 = 61 then [b64Val c0 * 4 + b64Val c1 / 16]
    else if c3 = 61 then
      [b64Val c0 * 4 + b64Val c1 / 16, b64Val c1 % 16 * 16 + b64Val c2 / 4]
    else
      (b64Val c0 * 4 + b64Val c1 / 16) ::
      (b64Val c1 % 16 * 16 + b64Val c2 / 4) ::
      (b64Val c2 % 4 * 64 + b64Val c3) :: base64Decode rest
  | _ => []

/-- Well-formed padded base64: length a multiple of four and every byte
from the base64 alphabet or padding. -/
def isB64 (c : List Nat) : Bool :=
  (c.length % 4 == 0) && c.all isB64Byte

/-- Header whitespace for the decoder model: space, tab, CR, LF. -/
def isWS (b : Nat) : Bool :=
  b = 9 || b = 10 || b = 13 || b = 32

/-- Content of an encoded word up to (not including) the closing `?=`,
together with the remainder after the closer; `none` when no closer
follows. -/
def parseUntilQE : List Nat → Option (List Nat × List Nat)
  | [] => none
  | [_] => none
  | b0 :: b1 :: rest =>
    if b0 = 63 ∧ b1 = 61 then some ([], rest)
    else
      match parseUntilQE (b1 :: rest) with
      | none => none
      | some cr => some (b0 :: cr.1, cr.2)

/-- Decode one leading `=?UTF-8?B?<base64>?=` encoded word, returning the
decoded bytes and the remainder, or `none` when the input does not start
with a well-formed encoded word. -/
def decodeBWord (s : List Nat) : Option (List Nat × List Nat) :=
  if openWordB.isPrefixOf s then
    (parseUntilQE (s.drop 10)).bind fun cr =>
      if isB64 cr.1 then some (base64Decode cr.1, cr.2) else none
  else none

/-- Modelled from the spec: the repository contains no decoder, and the
round-trip property appeals to "a standard MIME-header decoder"
(RFC 2047), so one is modelled here for the words this encoder emits:
a leading `=?UTF-8?B?<base64>?=` word is decoded; other text passes
through unchanged; whitespace between two adjacent encoded words is
ignored. -/
def decodeHeader : List Nat → List Nat
  | [] => []
  | b :: rest =>
    match hw : decodeBWord (b :: rest) with
    | some p =>
      p.1 ++ decodeHeader
        (if p.2.dropWhile isWS ≠ [] ∧ (decodeBWord (p.2.dropWhile isWS)).isSome then
          p.2.dropWhile isWS
        else p.2)
    | none => b :: decodeHeader rest
termination_by s => s.length
decreasing_by
  · have subkey : ∀ (u : List Nat), ∀ cr : List Nat × List Nat,
        parseUntilQE u = some cr → cr.2.length + 2 ≤ u.length := by
      intro u
      induction u using parseUntilQE.induct with
      | case1 => intro cr h; simp [parseUntilQE] at h
      | case2 => intro cr h; simp [parseUntilQE] at h
      | case3 b0 b1 r hc =>
        intro cr h
        simp only [parseUntilQE, if_pos hc, Option.some.injEq] at h
        rw [← h]
        simp
      | case4 b0 b1 r hc hnone ih =>
        intro cr h
        simp only [parseUntilQE, if_neg hc, hnone] at h
        simp at h
      | case5 b0 b1 r hc cr' hsome ih =>
        intro cr h
        simp only [parseUntilQE, if_neg hc, hsome, Option.some.injEq] at h
        have h2 := ih cr' hsome
        rw [← h]
        simp only [List.length_cons] at h2 ⊢
        omega
    have hkey : ∀ (u : List Nat) (q : List Nat × List Nat),
        decodeBWord u = some q → q.2.length < u.length := by
      intro u q hq
      unfold decodeBWord at hq
      split_ifs at hq with hpre
      · rcases hpar : parseUntilQE (u.drop 10) with _ | cr
        · rw [hpar] at hq
          simp at hq
        · rw [hpar] at hq
          rw [Option.some_bind] at hq
          split_ifs at hq with hb64
          have h2 := subkey _ _ hpar
          have hlen : (u.drop 10).length = u.length - 10 :=
            List.length_drop 10 u
          injection hq with hq1
          rw [← hq1]
          show cr.2.length < u.length
          omega
    have hk := hkey _ _ hw
    have hdw : ((p.2.dropWhile isWS : List Nat)).length ≤ p.2.length :=
      (List.dropWhile_sublist _).length_le
    split_ifs <;> omega
  · simp only [List.length_cons]
    omega

/-- A rune-decoding traversal of a byte string: the rune values together
with the bytes each occupies, as Go's `for range` loop sees them. -/
def runeList : List Nat → List (Nat × List Nat)
  | [] => []
  | b :: rest =>
    ((decodeRune (b :: rest)).1, (b :: rest).take (decodeRune (b :: rest)).2) ::
      runeList ((b :: rest).drop (decodeRune (b :: rest)).2)
termination_by s => s.length
decreasing_by
  have key : ∀ (b : Nat) (rest : List Nat),
      ((b :: rest).drop (decodeRune (b :: rest)).2).length < (b :: rest).length := by
    intro b rest
    have h : 1 ≤ (decodeRune (b :: rest)).2 := by
      rcases rest with _ | ⟨b1, _ | ⟨b2, _ | ⟨b3, r⟩⟩⟩ <;>
        · simp only [decodeRune]
          split_ifs <;> simp
    simp only [List.length_drop, List.length_cons]
    omega
  exact key _ _

/-- Embeds `unicode.IsSpace` on rune values. -/
def isSpaceRune (r : Nat) : Bool :=
  r = 9 || r = 10 || r = 11 || r = 12 || r = 13 || r = 32 || r = 133 ||
    r = 160 || r = 5760 || (8192 ≤ r && r ≤ 8202) || r = 8232 ||
    r = 8233 || r = 8239 || r = 8287 || r = 12288

/-- Embeds `strings.TrimSpace`: drop leading and trailing space runes. -/
def trimSpace (s : List Nat) : List Nat :=
  catList
    (((((runeList s).dropWhile fun p => isSpaceRune p.1).reverse.dropWhile
        fun p => isSpaceRune p.1).reverse).map fun p => p.2)

/-- The spec's reference refolding algorithm for the Header Encoder
(section 4.2, steps 3-5), written after the spec's words: split at `?=`,
return the encoded string unchanged when only one segment results,
otherwise re-append `?=` plus a fold newline to every segment but the
last, append the last segment bare, and strip exactly one trailing
newline if present. -/
def specFoldReference (encoded : List Nat) : List Nat :=
  let parts := splitQE encoded
  if parts.length = 1 then encoded
  else
    let assembled :=
      catList (parts.dropLast.map fun p => p ++ [63, 61, 10]) ++ parts.getLastD []
    if assembled.getLast? = some 10 then assembled.dropLast else assembled

/-- The bytes of `http://`. -/
def httpPfxB : List Nat := [104, 116, 116, 112, 58, 47, 47]

/-- The bytes of `https://`. -/
def httpsPfxB : List Nat := [104, 116, 116, 112, 115, 58, 47, 47]

/-- The bytes of `/upload`. -/
def uploadPathB : List Nat := [47, 117, 112, 108, 111, 97, 100]

/-- Embeds the URL composition of `sendMail`: append `:port` when the
port is non-empty, default the scheme to `http://`, append `/upload`. -/
def composeServerURL (host port : List Nat) : List Nat :=
  let serverAddress := host ++ (if port = [] then [] else 58 :: port)
  let serverAddress2 :=
    if !(httpPfxB.isPrefixOf serverAddress) && !(httpsPfxB.isPrefixOf serverAddress) then
      httpPfxB ++ serverAddress
    else serverAddress
  serverAddress2 ++ uploadPathB

/-- The spec's destination composition (section 4.1 step 1), written after
the spec's words: concatenate host and, when the port is non-empty,
`:port`; prepend `http://` when the result has neither scheme; append the
fixed `/upload` path. -/
def specComposeDestination (host port : List Nat) : List Nat :=
  let joined := if port = [] then host else host ++ 58 :: port
  let withScheme :=
    if httpPfxB.isPrefixOf joined || httpsPfxB.isPrefixOf joined then joined
    else httpPfxB ++ joined
  withScheme ++ uploadPathB

/-- An HTTP response as `uploadMessage` observes it: numeric status code,
status line text, body bytes. -/
structure HTTPResponse where
  status : Nat
  statusText : List Nat
  body : List Nat

/-- Outcome environment for one run of `uploadMessage`: whether each
external effect fails (with its error text), and the response delivered
when the POST goes through. -/
structure UploadWorld where
  socks5Fails : Bool
  socks5ErrText : List Nat
  requestFails : Bool
  requestErrText : List Nat
  doFails : Bool
  doErrText : List Nat
  response : HTTPResponse

/-- How a connection is dialed: through a SOCKS5 proxy at an address, or
directly. -/
inductive Dial where
  | socks5 (network : List Nat) (addr : List Nat)
  | direct

/-- A network request issuance, recording the dialer the client's
transport uses for it. -/
inductive NetEvent where
  | requestSent (d : Dial) (url : List Nat) (contentType : List Nat) (body : List Nat)

/-- The bytes of `127.0.0.1:9050`. -/
def torProxyAddrB : List Nat := [49, 50, 55, 46, 48, 46, 48, 46, 49, 58, 57, 48, 53, 48]

/-- The bytes of `tcp`. -/
def tcpB : List Nat := [116, 99, 112]

/-- The bytes of `application/octet-stream`. -/
def contentTypeB : List Nat :=
  [97, 112, 112, 108, 105, 99, 97, 116, 105, 111, 110, 47, 111, 99, 116,
   101, 116, 45, 115, 116, 114, 101, 97, 109]

/-- The bytes of the error text `can't connect to Tor proxy: `. -/
def errTorProxyHead : List Nat :=
  [99, 97, 110, 39, 116, 32, 99, 111, 110, 110, 101, 99, 116, 32, 116,
   111, 32, 84, 111, 114, 32, 112, 114, 111, 120, 121, 58, 32]

/-- The bytes of the error text `failed to create request: `. -/
def errCreateReqHead : List Nat :=
  [102, 97, 105, 108, 101, 100, 32, 116, 111, 32, 99, 114, 101, 97, 116,
   101, 32, 114, 101, 113, 117, 101, 115, 116, 58, 32]

/-- The bytes of the error text `failed to send request: `. -/
def errSendReqHead : List Nat :=
  [102, 97, 105, 108, 101, 100, 32, 116, 111, 32, 115, 101, 110, 100, 32,
   114, 101, 113, 117, 101, 115, 116, 58, 32]

/-- The bytes of the error text `unexpected status: `. -/
def errStatusHead : List Nat :=
  [117, 110, 101, 120, 112, 101, 99, 116, 101, 100, 32, 115, 116, 97,
   116, 117, 115, 58, 32]

/-- The bytes of the error text `, body: `. -/
def errBodyMid : List Nat := [44, 32, 98, 111, 100, 121, 58, 32]

/-- Embeds `uploadMessage`: construct the SOCKS5 dialer to
`127.0.0.1:9050` (failure aborts before any request), wire it as the
client transport's dial function, build the POST request (failure aborts
before any request), issue it through the client, and classify the
response: non-200 statuses become an error carrying status text and
body.  Alongside the result, the network requests issued are recorded
with the dialer they go through. -/
def uploadMessage (w : UploadWorld) (serverURL message : List Nat) :
    Except (List Nat) Unit × List NetEvent :=
  if w.socks5Fails then (Except.error (errTorProxyHead ++ w.socks5ErrText), [])
  else
    let transportDial := Dial.socks5 tcpB torProxyAddrB
    if w.requestFails then (Except.error (errCreateReqHead ++ w.requestErrText), [])
    else
      let events := [NetEvent.requestSent transportDial serverURL contentTypeB message]
      if w.doFails then (Except.error (errSendReqHead ++ w.doErrText), events)
      else if w.response.status ≠ 200 then
        (Except.error (errStatusHead ++ w.response.statusText ++ errBodyMid ++
          w.response.body), events)
      else (Except.ok (), events)

/-- The configuration loaded from quickmail.json. -/
structure GoConfig where
  onionAddress : List Nat
  port : List Nat

/-- The application state `sendMail` reads: the optional configuration
and the text area content. -/
structure AppState where
  config : Option GoConfig
  textAreaText : List Nat

/-- What `sendMail` does before its goroutine: an error dialog, or the
spawn of the upload with the composed URL and the message. -/
inductive SendAction where
  | errorDialog (msg : List Nat)
  | spawnUpload (serverURL : List Nat) (message : List Nat)

/-- The bytes of `Configuration not loaded`. -/
def msgConfigNotLoaded : List Nat :=
  [67, 111, 110, 102, 105, 103, 117, 114, 97, 116, 105, 111, 110, 32,
   110, 111, 116, 32, 108, 111, 97, 100, 101, 100]

/-- The bytes of `Message is empty`. -/
def msgEmpty : List Nat :=
  [77, 101, 115, 115, 97, 103, 101, 32, 105, 115, 32, 101, 109, 112, 116, 121]

/-- The bytes of `Message sent successfully!`. -/
def msgSentOK : List Nat :=
  [77, 101, 115, 115, 97, 103, 101, 32, 115, 101, 110, 116, 32, 115, 117,
   99, 99, 101, 115, 115, 102, 117, 108, 108, 121, 33]

/-- The bytes of `Send error: `. -/
def sendErrHead : List Nat :=
  [83, 101, 110, 100, 32, 101, 114, 114, 111, 114, 58, 32]

/-- Embeds the guard-and-compose part of `sendMail`: no configuration or
a whitespace-only message shows an error dialog and returns; otherwise
the destination URL is composed and the upload goroutine spawned with
the original message. -/
def sendMail (st : AppState) : SendAction :=
  match st.config with
  | none => SendAction.errorDialog msgConfigNotLoaded
  | some cfg =>
    if trimSpace st.textAreaText = [] then SendAction.errorDialog msgEmpty
    else
      SendAction.spawnUpload (composeServerURL cfg.onionAddress cfg.port)
        st.textAreaText

/-- A completion notification delivered to the user. -/
inductive UINote where
  | errorShown (msg : List Nat)
  | successShown (msg : List Nat)

/-- Embeds the body of the goroutine spawned by `sendMail`: run the
upload, then show exactly one dialog - the error dialog with the wrapped
error on failure, the success dialog otherwise. -/
def sendGoroutine (w : UploadWorld) (serverURL message : List Nat) : List UINote :=
  match (uploadMessage w serverURL message).1 with
  | Except.error e => [UINote.errorShown (sendErrHead ++ e)]
  | Except.ok _ => [UINote.successShown msgSentOK]

theorem decodeRune_size_pos (b : Nat) (rest : List Nat) :
    1 ≤ (decodeRune (b :: rest)).2 := by
  rcases rest with _ | ⟨b1, _ | ⟨b2, _ | ⟨b3, r⟩⟩⟩ <;>
    · simp only [decodeRune]
      split_ifs <;> simp

theorem decodeRune_size_le_four (b : Nat) (rest : List Nat) :
    (decodeRune (b :: rest)).2 ≤ 4 := by
  rcases rest with _ | ⟨b1, _ | ⟨b2, _ | ⟨b3, r⟩⟩⟩ <;>
    · simp only [decodeRune]
      split_ifs <;> simp

theorem decodeRune_ascii (b : Nat) (rest : List Nat) (h : b < 128) :
    decodeRune (b :: rest) = (b, 1) := by
  unfold decodeRune
  simp [h]

theorem splitQE_ne_nil (x : List Nat) : splitQE x ≠ [] := by
  induction x using splitQE.induct with
  | case1 => simp [splitQE]
  | case2 => simp [splitQE]
  | case3 b0 b1 rest h => simp [splitQE, h]
  | case4 b0 b1 rest h hq ih => simp [splitQE, if_neg h, hq]
  | case5 b0 b1 rest h p ps hq ih => simp [splitQE, if_neg h, hq]

theorem splitNL_ne_nil (x : List Nat) : splitNL x ≠ [] := by
  induction x with
  | nil => simp [splitNL]
  | cons b rest ih =>
    simp only [splitNL]
    split_ifs with h
    · simp
    · rcases hq : splitNL rest with _ | ⟨p, ps⟩ <;> simp

/-- The refold loop of `encodeMIMESubject` applied to the parts of the
split is the same as inserting a newline after every `?=`. -/
theorem foldParts_splitQE (x : List Nat) :
    foldParts (splitQE x) = replaceQE x := by
  induction x using splitQE.induct with
  | case1 => rfl
  | case2 => rfl
  | case3 b0 b1 rest h ih =>
    rcases h with ⟨h0, h1⟩
    subst h0; subst h1
    simp only [splitQE, if_pos (And.intro rfl rfl), replaceQE]
    rcases hq : splitQE rest with _ | ⟨p, ps⟩
    · exact absurd hq (splitQE_ne_nil rest)
    · rcases ps with _ | ⟨q, qs⟩ <;> simp_all [foldParts]
  | case4 b0 b1 rest h hq ih => exact absurd hq (splitQE_ne_nil _)
  | case5 b0 b1 rest h p ps hq ih =>
    simp only [splitQE, if_neg h, hq, replaceQE, if_neg h]
    rcases ps with _ | ⟨q, qs⟩ <;> simp_all [foldParts]

theorem splitQE_of_not_hasQE (x : List Nat) (h : hasQE x = false) :
    splitQE x = [x] := by
  induction x using splitQE.induct with
  | case1 => rfl
  | case2 => rfl
  | case3 b0 b1 rest hc => simp [hasQE, if_pos hc] at h
  | case4 b0 b1 rest hc hq ih => exact absurd hq (splitQE_ne_nil _)
  | case5 b0 b1 rest hc p ps hq ih =>
    simp only [hasQE, if_neg hc] at h
    have := ih h
    rw [hq] at this
    simp only [splitQE, if_neg hc, hq]
    simp_all

theorem replaceQE_of_not_hasQE (x : List Nat) (h : hasQE x = false) :
    replaceQE x = x := by
  induction x using replaceQE.induct with
  | case1 => rfl
  | case2 => rfl
  | case3 b0 b1 rest hc => simp [hasQE, if_pos hc] at h
  | case4 b0 b1 rest hc ih =>
    simp only [hasQE, if_neg hc] at h
    simp [replaceQE, if_neg hc, ih h]

theorem splitQE_length_of_hasQE (x : List Nat) (h : hasQE x = true) :
    2 ≤ (splitQE x).length := by
  induction x using splitQE.induct with
  | case1 => simp [hasQE] at h
  | case2 => simp [hasQE] at h
  | case3 b0 b1 rest hc =>
    have hne := splitQE_ne_nil rest
    simp only [splitQE, if_pos hc, List.length_cons]
    rcases hq : splitQE rest with _ | ⟨p, ps⟩ <;> simp_all
  | case4 b0 b1 rest hc hq ih => exact absurd hq (splitQE_ne_nil _)
  | case5 b0 b1 rest hc p ps hq ih =>
    simp only [hasQE, if_neg hc] at h
    have h2 := ih h
    rw [hq] at h2
    simp only [splitQE, if_neg hc, hq]
    simp_all

theorem hasQE_append_qe (u v : List Nat) :
    hasQE (u ++ 63 :: 61 :: v) = true := by
  induction u with
  | nil => simp [hasQE]
  | cons a u ih =>
    rcases u with _ | ⟨b, u'⟩
    · simp only [List.nil_append, List.cons_append] at *
      by_cases hc : a = 63 ∧ (63 : Nat) = 61 <;> simp [hasQE, hc]
    · simp only [List.cons_append] at *
      by_cases hc : a = 63 ∧ b = 61 <;> simp [hasQE, hc, ih]

theorem replaceQE_append_no63 (w v : List Nat) (hw : ∀ x ∈ w, x ≠ 63) :
    replaceQE (w ++ v) = w ++ replaceQE v := by
  induction w with
  | nil => simp
  | cons a w ih =>
    have ha : a ≠ 63 := hw a (by simp)
    have hw' : ∀ x ∈ w, x ≠ 63 := fun x hx => hw x (by simp [hx])
    rcases hwv : w ++ v with _ | ⟨b, rest⟩
    · rcases List.append_eq_nil.mp hwv with ⟨h1, h2⟩
      subst h1; subst h2
      simp [replaceQE]
    · simp only [List.cons_append, hwv, replaceQE]
      rw [if_neg (by tauto), ← hwv, ih hw']

theorem replaceQE_qe_cons (v : List Nat) :
    replaceQE (63 :: 61 :: v) = 63 :: 61 :: 10 :: replaceQE v := by
  simp [replaceQE]

theorem replaceQE_cons_ne63 (a : Nat) (z : List Nat) (ha : a ≠ 63) :
    replaceQE (a :: z) = a :: replaceQE z := by
  simpa using replaceQE_append_no63 [a] z (by simp [ha])

/-- Printable-ASCII strings (bytes between space and tilde) do not need
encoding: the Go encoder's fast path applies. -/
theorem needsEncoding_printable (s : List Nat)
    (h : ∀ b ∈ s, 32 ≤ b ∧ b ≤ 126) : needsEncoding s = false := by
  induction s with
  | nil => simp [needsEncoding]
  | cons b rest ih =>
    have hb := h b (by simp)
    have hd : decodeRune (b :: rest) = (b, 1) :=
      decodeRune_ascii b rest (by omega)
    rw [needsEncoding, hd]
    have hcond : ¬(((b, 1).1 < 32 ∨ 126 < (b, 1).1) ∧ (b, 1).1 ≠ 9) := by
      simp only []
      omega
    rw [if_neg hcond]
    simpa using ih (fun x hx => h x (by simp [hx]))

theorem trimSuffixNL_of_no10 (s : List Nat) (h : ∀ b ∈ s, b ≠ 10) :
    trimSuffixNL s = s := by
  unfold trimSuffixNL
  split_ifs with hl
  · have h10 : (10 : Nat) ∈ s := by
      rcases List.mem_getLast?_eq_getLast (l := s) (x := 10)
        (by simpa [Option.mem_def] using hl) with ⟨hne2, heq⟩
      rw [heq]
      exact List.getLast_mem hne2
    exact absurd (h 10 h10) (by simp)
  · rfl

/-- For non-empty printable-ASCII input (the mime encoder's fast path),
`encodeMIMESubject` only inserts a newline after each embedded `?=`. -/
theorem encodeMIMESubject_printable (s : List Nat) (hne : s ≠ [])
    (h : ∀ b ∈ s, 32 ≤ b ∧ b ≤ 126) :
    encodeMIMESubject s = trimSuffixNL (replaceQE s) := by
  have hmime : mimeEncode s = s := by
    simp [mimeEncode, needsEncoding_printable s h]
  by_cases hq : hasQE s = true
  · have h2 := splitQE_length_of_hasQE s hq
    simp only [encodeMIMESubject, if_neg hne, hmime]
    rw [if_neg (by omega), foldParts_splitQE]
  · have hq' : hasQE s = false := by simpa using hq
    rw [replaceQE_of_not_hasQE s hq']
    simp only [encodeMIMESubject, if_neg hne, hmime,
      splitQE_of_not_hasQE s hq']
    rw [if_pos (by simp), trimSuffixNL_of_no10 s
      (fun b hb => by have := h b hb; omega)]

theorem b64Index_isB64 (i : Nat) : isB64Byte (b64Index i) = true := by
  unfold b64Index isB64Byte
  split_ifs <;> simp <;> omega

theorem b64Index_ne_61 (i : Nat) : b64Index i ≠ 61 := by
  unfold b64Index
  split_ifs <;> omega

theorem base64Encode_mem (bs : List Nat) :
    ∀ x ∈ base64Encode bs, isB64Byte x = true := by
  induction bs using base64Encode.induct with
  | case1 => simp [base64Encode]
  | case2 a =>
    simp [base64Encode, b64Index_isB64, show isB64Byte 61 = true by decide]
  | case3 a b =>
    simp [base64Encode, b64Index_isB64, show isB64Byte 61 = true by decide]
  | case4 a b c rest ih =>
    intro x hx
    simp only [base64Encode, List.mem_cons] at hx
    rcases hx with h | h | h | h | h
    all_goals first
      | (subst h; exact b64Index_isB64 _)
      | exact ih x h

theorem isB64Byte_ne_63 (b : Nat) (h : isB64Byte b = true) : b ≠ 63 := by
  unfold isB64Byte at h
  intro hb
  subst hb
  simp at h

theorem isB64Byte_ne_10 (b : Nat) (h : isB64Byte b = true) : b ≠ 10 := by
  unfold isB64Byte at h
  intro hb
  subst hb
  simp at h

theorem head_b64_append_ne_61 (bs z : List Nat) (hz : z.head? ≠ some 61) :
    (base64Encode bs ++ z).head? ≠ some 61 := by
  rcases bs with _ | ⟨a, _ | ⟨b, _ | ⟨c, rest⟩⟩⟩ <;>
    simp [base64Encode, hz, b64Index_ne_61]

theorem headQE_ne_61 (cs : List (List Nat)) :
    (joinSep splitSepB (cs.map base64Encode) ++ [63, 61]).head? ≠ some 61 := by
  rcases cs with _ | ⟨c0, _ | ⟨c1, cs'⟩⟩
  · simp [joinSep]
  · simp only [List.map_cons, List.map_nil, joinSep]
    exact head_b64_append_ne_61 c0 [63, 61] (by simp)
  · simp only [List.map_cons, joinSep, List.append_assoc]
    exact head_b64_append_ne_61 c0 _ (by simp [splitSepB])

theorem replaceQE_openWord (z : List Nat) (hz : z.head? ≠ some 61) :
    replaceQE (openWordB ++ z) = openWordB ++ replaceQE z := by
  rcases z with _ | ⟨c, z'⟩
  · decide
  · have hc : c ≠ 61 := by simpa using hz
    simp [openWordB, replaceQE, hc]

theorem replaceQE_joined (cs : List (List Nat)) :
    replaceQE (joinSep splitSepB (cs.map base64Encode) ++ [63, 61]) =
      joinSep foldedSepB (cs.map base64Encode) ++ [63, 61, 10] := by
  induction cs with
  | nil => decide
  | cons c cs ih =>
    have hno63 : ∀ x ∈ base64Encode c, x ≠ 63 :=
      fun x hx => isB64Byte_ne_63 x (base64Encode_mem c x hx)
    rcases cs with _ | ⟨c1, cs'⟩
    · simp only [List.map_cons, List.map_nil, joinSep]
      rw [replaceQE_append_no63 _ _ hno63]
      simp [replaceQE]
    · simp only [List.map_cons, joinSep, List.append_assoc]
      rw [replaceQE_append_no63 _ _ hno63]
      have hsep : splitSepB ++ (joinSep splitSepB (base64Encode c1 ::
          cs'.map base64Encode) ++ [63, 61]) =
          63 :: 61 :: 32 :: (openWordB ++ (joinSep splitSepB
            ((c1 :: cs').map base64Encode) ++ [63, 61])) := by
        simp [splitSepB]
      rw [hsep, replaceQE_qe_cons]
      rw [replaceQE_cons_ne63 32 _ (by simp)]
      rw [replaceQE_openWord _ (headQE_ne_61 (c1 :: cs'))]
      rw [ih]
      simp [foldedSepB]

theorem bEncode_joined (s : List Nat) :
    bEncode s = joinSep splitSepB ((chunksOf s).map base64Encode) := by
  unfold bEncode chunksOf
  split_ifs with h
  · simp [joinSep]
  · rfl

/-- Shape of `encodeMIMESubject` on input the mime encoder really
encodes: opener, base64 words joined by `?=`, newline, space, opener,
and a final closer; the fold newline goes after every internal `?=` and
the one trailing newline is trimmed. -/
theorem encodeMIMESubject_encoded (s : List Nat)
    (h : needsEncoding s = true) :
    encodeMIMESubject s =
      openWordB ++ joinSep foldedSepB ((chunksOf s).map base64Encode) ++
        [63, 61] := by
  have hne : s ≠ [] := by
    intro hnil
    rw [hnil] at h
    simp [needsEncoding] at h
  have hmime : mimeEncode s =
      openWordB ++ (joinSep splitSepB ((chunksOf s).map base64Encode) ++
        [63, 61]) := by
    simp [mimeEncode, h, encodeWord, bEncode_joined]
  have hqe : hasQE (mimeEncode s) = true := by
    rw [hmime, ← List.append_assoc]
    exact hasQE_append_qe _ []
  have hlen := splitQE_length_of_hasQE _ hqe
  simp only [encodeMIMESubject, if_neg hne]
  rw [if_neg (by omega), foldParts_splitQE, hmime,
    replaceQE_openWord _ (headQE_ne_61 _), replaceQE_joined]
  have hshape : openWordB ++ (joinSep foldedSepB ((chunksOf s).map
      base64Encode) ++ [63, 61, 10]) =
      (openWordB ++ joinSep foldedSepB ((chunksOf s).map base64Encode) ++
        [63, 61]) ++ [10] := by
    simp
  rw [hshape]
  unfold trimSuffixNL
  rw [if_pos (List.getLast?_concat _), List.dropLast_concat]

theorem foldParts_eq_spec (ps : List (List Nat)) (hne : ps ≠ []) :
    foldParts ps =
      catList (ps.dropLast.map fun p => p ++ [63, 61, 10]) ++ ps.getLastD [] := by
  induction ps with
  | nil => exact absurd rfl hne
  | cons p ps ih =>
    rcases ps with _ | ⟨q, qs⟩
    · simp [foldParts, catList]
    · rw [show foldParts (p :: q :: qs) = p ++ [63, 61, 10] ++ foldParts (q :: qs)
        from rfl, ih (by simp)]
      simp [catList, List.getLastD_cons]

/-- C9: `encodeMIMESubject` maps the empty subject to the empty string;
the function is total on all byte strings, so the empty case is a no-op,
not an error. -/
theorem c9_empty_input : encodeMIMESubject [] = [] := by
  simp [encodeMIMESubject]

/-- C1 counterexample: the non-empty, printable-ASCII-only subject
`Hello` is returned by `encodeMIMESubject` unchanged, as plain ASCII -
not in the charset-tagged `=?UTF-8?B?...?=` encoded-word form the claim
promises unconditionally for non-empty input. -/
theorem c1_counterexample :
    encodeMIMESubject [72, 101, 108, 108, 111] = [72, 101, 108, 108, 111] ∧
      openWordB.isPrefixOf (encodeMIMESubject [72, 101, 108, 108, 111]) = false := by
  have h : encodeMIMESubject [72, 101, 108, 108, 111] =
      trimSuffixNL (replaceQE [72, 101, 108, 108, 111]) :=
    encodeMIMESubject_printable _ (by decide) (by decide)
  rw [h]
  decide

/-- C1 (amended): the encoding path is NOT unconditional - for non-empty
input made only of printable ASCII, `mime.BEncoding.Encode` takes its
plain-ASCII fast path, so `encodeMIMESubject` returns the input with
just a newline inserted after each embedded `?=` (one trailing newline
trimmed); in particular such input without `?=` is returned unchanged,
never base64-encoded. -/
theorem c1_ascii_fast_path (s : List Nat) (hne : s ≠ [])
    (h : ∀ b ∈ s, 32 ≤ b ∧ b ≤ 126) :
    encodeMIMESubject s = trimSuffixNL (replaceQE s) ∧
      (hasQE s = false → encodeMIMESubject s = s) := by
  refine ⟨encodeMIMESubject_printable s hne h, fun hq => ?_⟩
  rw [encodeMIMESubject_printable s hne h, replaceQE_of_not_hasQE s hq]
  exact trimSuffixNL_of_no10 s fun b hb => by have := h b hb; omega

theorem c1_ascii_fast_path_witness :
    ([72] ≠ ([] : List Nat)) ∧ (∀ b ∈ [72], 32 ≤ b ∧ b ≤ 126) ∧
      (encodeMIMESubject [72] = trimSuffixNL (replaceQE [72]) ∧
        (hasQE [72] = false → encodeMIMESubject [72] = [72])) :=
  ⟨by decide, by decide, c1_ascii_fast_path [72] (by decide) (by decide)⟩

/-- C4: on every non-empty input, `encodeMIMESubject` agrees with the
spec's reference algorithm applied to the charset-encoded string: split
at `?=`; with a single segment return the encoded string unchanged;
otherwise re-append `?=` plus a newline to every segment but the last,
concatenate in order, append the last segment bare, and strip exactly
one trailing newline if present. -/
theorem c4_fold_refinement (input : List Nat) (hne : input ≠ []) :
    encodeMIMESubject input = specFoldReference (mimeEncode input) := by
  have hp := splitQE_ne_nil (mimeEncode input)
  have hlen : 1 ≤ (splitQE (mimeEncode input)).length :=
    List.length_pos.mpr hp
  simp only [encodeMIMESubject, if_neg hne, specFoldReference]
  have hfold := foldParts_eq_spec (splitQE (mimeEncode input)) hp
  by_cases h1 : (splitQE (mimeEncode input)).length = 1
  · rw [if_pos (by omega), if_pos h1]
  · rw [if_neg (by omega), if_neg h1, hfold]
    rfl

theorem c4_fold_refinement_witness :
    ([72, 105] ≠ ([] : List Nat)) ∧
      encodeMIMESubject [72, 105] = specFoldReference (mimeEncode [72, 105]) :=
  ⟨by decide, c4_fold_refinement [72, 105] (by decide)⟩

theorem isPrefixOf_self_append (l r : List Nat) :
    l.isPrefixOf (l ++ r) = true := by
  induction l with
  | nil => simp [List.isPrefixOf]
  | cons a l ih => simp [List.isPrefixOf, ih]

theorem isPrefixOf_append_of (p : List Nat) :
    ∀ (x : List Nat), p.isPrefixOf x = true →
      ∀ (y : List Nat), p.isPrefixOf (x ++ y) = true := by
  induction p with
  | nil => intro x _ y; simp [List.isPrefixOf]
  | cons a p ih =>
    intro x hx y
    rcases x with _ | ⟨b, xs⟩
    · simp [List.isPrefixOf] at hx
    · simp only [List.isPrefixOf, Bool.and_eq_true, beq_iff_eq] at hx
      simp [List.isPrefixOf, hx.1, ih xs hx.2 y]

/-- C3: `sendMail` composes the destination exactly as the spec says -
host, `:port` when the port is non-empty, a defaulted `http://` scheme
when neither scheme is present, and the fixed `/upload` path - and the
composed URL always starts with an explicit scheme and ends in
`/upload`. -/
theorem c3_compose_destination (host port : List Nat) :
    composeServerURL host port = specComposeDestination host port ∧
      (httpPfxB.isPrefixOf (composeServerURL host port) = true ∨
        httpsPfxB.isPrefixOf (composeServerURL host port) = true) ∧
      uploadPathB <:+ composeServerURL host port := by
  refine ⟨?_, ?_, ?_⟩
  · simp only [composeServerURL, specComposeDestination]
    have hx : (host ++ if port = [] then [] else 58 :: port) =
        (if port = [] then host else host ++ 58 :: port) := by
      by_cases hp : port = [] <;> simp [hp]
    rw [← hx]
    cases h1 : httpPfxB.isPrefixOf (host ++ if port = [] then [] else 58 :: port) <;>
      cases h2 : httpsPfxB.isPrefixOf (host ++ if port = [] then [] else 58 :: port) <;>
      simp [h1, h2]
  · simp only [composeServerURL]
    cases h1 : httpPfxB.isPrefixOf (host ++ if port = [] then [] else 58 :: port) <;>
      cases h2 : httpsPfxB.isPrefixOf (host ++ if port = [] then [] else 58 :: port) <;>
      simp only [h1, h2, Bool.not_false, Bool.not_true, Bool.and_self,
        Bool.false_and, Bool.and_false, if_true, if_false]
    · exact Or.inl (isPrefixOf_append_of _ _ (isPrefixOf_self_append _ _) _)
    · exact Or.inr (isPrefixOf_append_of _ _ h2 _)
    · exact Or.inl (isPrefixOf_append_of _ _ h1 _)
    · exact Or.inl (isPrefixOf_append_of _ _ h1 _)
  · simp only [composeServerURL]
    split_ifs <;> exact List.suffix_append _ _

/-- C2: once an HTTP response is received (dialer, request construction
and transport all succeeded), `uploadMessage` returns success exactly
for status 200; any other status yields the error built from the
response's status text and body, never success. -/
theorem c2_status_classification (w : UploadWorld) (url msg : List Nat)
    (h5 : w.socks5Fails = false) (hr : w.requestFails = false)
    (hd : w.doFails = false) :
    (w.response.status = 200 → (uploadMessage w url msg).1 = Except.ok ()) ∧
      (w.response.status ≠ 200 →
        (uploadMessage w url msg).1 =
          Except.error (errStatusHead ++ w.response.statusText ++ errBodyMid ++
            w.response.body) ∧
        (uploadMessage w url msg).1 ≠ Except.ok ()) := by
  constructor
  · intro h200
    simp [uploadMessage, h5, hr, hd, h200]
  · intro hne
    simp [uploadMessage, h5, hr, hd, hne]

theorem c2_status_classification_witness :
    (uploadMessage ⟨false, [], false, [], false, [],
        ⟨500, [53, 48, 48], [100, 101, 110, 105, 101, 100]⟩⟩ [] []).1 =
      Except.error (errStatusHead ++ [53, 48, 48] ++ errBodyMid ++
        [100, 101, 110, 105, 101, 100]) :=
  ((c2_status_classification _ [] [] rfl rfl rfl).2 (by decide)).1

/-- C7: when constructing the SOCKS5 dialer fails, `uploadMessage`
returns the proxy-connect error without issuing any request; and every
request it ever issues goes through the SOCKS5 dialer bound to
`127.0.0.1:9050` - never a direct dial. -/
theorem c7_proxy_exclusive (w : UploadWorld) (url msg : List Nat) :
    (w.socks5Fails = true →
      (uploadMessage w url msg).1 =
          Except.error (errTorProxyHead ++ w.socks5ErrText) ∧
        (uploadMessage w url msg).2 = []) ∧
      (∀ ev ∈ (uploadMessage w url msg).2,
        ev = NetEvent.requestSent (Dial.socks5 tcpB torProxyAddrB) url
          contentTypeB msg) := by
  constructor
  · intro h5
    simp [uploadMessage, h5]
  · intro ev hev
    unfold uploadMessage at hev
    split_ifs at hev <;> simp_all

theorem c7_proxy_exclusive_witness :
    (uploadMessage ⟨true, [], false, [], false, [], ⟨200, [], []⟩⟩ [] []).1 =
        Except.error (errTorProxyHead ++ []) ∧
      (uploadMessage ⟨true, [], false, [], false, [], ⟨200, [], []⟩⟩ [] []).2 = [] :=
  (c7_proxy_exclusive _ [] []).1 rfl

/-- C8: the goroutine body spawned by `sendMail` delivers exactly one
completion notification: the error dialog exactly when the upload
returned an error, the success dialog exactly when it returned nil -
never both, never neither. -/
theorem c8_callback_exactly_once (w : UploadWorld) (url msg : List Nat) :
    (sendGoroutine w url msg).length = 1 ∧
      (∀ e, (uploadMessage w url msg).1 = Except.error e →
        sendGoroutine w url msg = [UINote.errorShown (sendErrHead ++ e)]) ∧
      ((uploadMessage w url msg).1 = Except.ok () →
        sendGoroutine w url msg = [UINote.successShown msgSentOK]) := by
  rcases h : (uploadMessage w url msg).1 with e | u
  · simp [sendGoroutine, h]
  · simp [sendGoroutine, h]

theorem c8_callback_exactly_once_witness :
    (sendGoroutine ⟨false, [], false, [], false, [], ⟨200, [], []⟩⟩ [] []).length = 1 :=
  (c8_callback_exactly_once _ [] []).1

/-- C10: with no loaded configuration, or a text-area message that is
empty or whitespace-only, `sendMail` shows an error dialog and never
reaches URL composition or the upload spawn. -/
theorem c10_guards (st : AppState)
    (h : st.config = none ∨ trimSpace st.textAreaText = []) :
    (∃ m, sendMail st = SendAction.errorDialog m) ∧
      ∀ url msg, sendMail st ≠ SendAction.spawnUpload url msg := by
  rcases h with hc | ht
  · refine ⟨⟨msgConfigNotLoaded, ?_⟩, ?_⟩ <;> simp [sendMail, hc]
  · rcases hcfg : st.config with _ | cfg
    · refine ⟨⟨msgConfigNotLoaded, ?_⟩, ?_⟩ <;> simp [sendMail, hcfg]
    · refine ⟨⟨msgEmpty, ?_⟩, ?_⟩ <;> simp [sendMail, hcfg, ht]

theorem c10_guards_witness :
    (∃ m, sendMail ⟨none, []⟩ = SendAction.errorDialog m) ∧
      ∀ url msg, sendMail ⟨none, []⟩ ≠ SendAction.spawnUpload url msg :=
  c10_guards ⟨none, []⟩ (Or.inl rfl)

theorem base64Encode_length (bs : List Nat) :
    (base64Encode bs).length = encodedLen bs.length := by
  induction bs using base64Encode.induct with
  | case1 => simp [base64Encode, encodedLen]
  | case2 a => simp [base64Encode, encodedLen]
  | case3 a b => simp [base64Encode, encodedLen]
  | case4 a b c rest ih =>
    simp only [base64Encode, List.length_cons, ih, encodedLen]
    omega

/-- Invariant of the `bEncode` chunking loop: every emitted chunk keeps
its base64 length within `maxContentLen("UTF-8") = 63`. -/
theorem bSplit_chunk_len (s cur : List Nat)
    (hcur : encodedLen cur.length ≤ 63) :
    ∀ c ∈ bSplit s cur, encodedLen c.length ≤ 63 := by
  induction s, cur using bSplit.induct with
  | case1 cur =>
    intro c hc
    simp only [bSplit, List.mem_singleton] at hc
    subst hc
    exact hcur
  | case2 b rest cur hguard ih =>
    intro c hc
    rw [bSplit, if_pos hguard] at hc
    refine ih ?_ c hc
    have htk : (List.take (decodeRune (b :: rest)).2 (b :: rest)).length ≤
        (decodeRune (b :: rest)).2 := by
      simp [List.length_take]
    simp only [List.length_append, encodedLen] at hguard ⊢
    omega
  | case3 b rest cur hguard ih =>
    intro c hc
    rw [bSplit, if_neg hguard] at hc
    rcases List.mem_cons.mp hc with hc | hc
    · subst hc
      exact hcur
    · refine ih ?_ c hc
      have h4 := decodeRune_size_le_four b rest
      have htk : (List.take (decodeRune (b :: rest)).2 (b :: rest)).length ≤
          (decodeRune (b :: rest)).2 := by
        simp [List.length_take]
      simp only [encodedLen] at *
      omega

theorem chunksOf_len (s : List Nat) :
    ∀ c ∈ chunksOf s, encodedLen c.length ≤ 63 := by
  unfold chunksOf
  split_ifs with h
  · intro c hc
    simp only [List.mem_singleton] at hc
    subst hc
    exact h
  · exact bSplit_chunk_len s [] (by simp [encodedLen])

theorem no10_of_b64 (c : List Nat) : ∀ x ∈ base64Encode c, x ≠ 10 :=
  fun x hx => isB64Byte_ne_10 x (base64Encode_mem c x hx)

theorem splitNL_of_no10 (u : List Nat) (h : ∀ x ∈ u, x ≠ 10) :
    splitNL u = [u] := by
  induction u with
  | nil => rfl
  | cons a u ih =>
    have ha : a ≠ 10 := h a (by simp)
    rw [splitNL, if_neg ha, ih fun x hx => h x (by simp [hx])]

theorem splitNL_append_10 (u v : List Nat) (h : ∀ x ∈ u, x ≠ 10) :
    splitNL (u ++ 10 :: v) = u :: splitNL v := by
  induction u with
  | nil => simp [splitNL]
  | cons a u ih =>
    have ha : a ≠ 10 := h a (by simp)
    rw [List.cons_append, splitNL, if_neg ha,
      ih fun x hx => h x (by simp [hx])]

theorem splitNL_cons_ne10 (a : Nat) (z : List Nat) (ha : a ≠ 10) (p : List Nat)
    (ps : List (List Nat)) (hz : splitNL z = p :: ps) :
    splitNL (a :: z) = (a :: p) :: ps := by
  rw [splitNL, if_neg ha, hz]

/-- Line structure of the folded output: the first line is at most 75
bytes, every line is at most 76 bytes, and every line ends with the
`?=` closer. -/
theorem lines_of_joined (cs : List (List Nat))
    (hlen : ∀ c ∈ cs, encodedLen c.length ≤ 63) :
    (∀ l ∈ splitNL (openWordB ++ joinSep foldedSepB (cs.map base64Encode) ++
        [63, 61]), l.length ≤ 76 ∧ [63, 61] <:+ l) ∧
      (∀ l, (splitNL (openWordB ++ joinSep foldedSepB (cs.map base64Encode) ++
        [63, 61])).head? = some l → l.length ≤ 75) := by
  induction cs with
  | nil =>
    constructor
    · intro l hl
      rw [show openWordB ++ joinSep foldedSepB (List.map base64Encode []) ++
          [63, 61] = [61, 63, 85, 84, 70, 45, 56, 63, 66, 63, 63, 61] by rfl] at hl
      rw [splitNL_of_no10 _ (by decide)] at hl
      simp only [List.mem_singleton] at hl
      subst hl
      exact ⟨by decide, by decide⟩
    · intro l hl
      rw [show openWordB ++ joinSep foldedSepB (List.map base64Encode []) ++
          [63, 61] = [61, 63, 85, 84, 70, 45, 56, 63, 66, 63, 63, 61] by rfl,
        splitNL_of_no10 _ (by decide)] at hl
      simp only [List.head?_cons, Option.some.injEq] at hl
      subst hl
      decide
  | cons c cs ih =>
    have hc63 := hlen c (by simp)
    have hline1 : (openWordB ++ base64Encode c ++ [63, 61]).length ≤ 75 := by
      have := base64Encode_length c
      simp only [List.length_append, openWordB, this]
      simp only [List.length_cons, List.length_nil]
      omega
    have hno10_line1 : ∀ x ∈ openWordB ++ base64Encode c ++ [63, 61], x ≠ 10 := by
      intro x hx
      simp only [List.mem_append] at hx
      rcases hx with (hx | hx) | hx
      · exact fun heq => absurd (heq ▸ hx) (by decide)
      · exact no10_of_b64 c x hx
      · exact fun heq => absurd (heq ▸ hx) (by decide)
    rcases cs with _ | ⟨c1, cs'⟩
    · have hs : splitNL (openWordB ++ joinSep foldedSepB ([c].map base64Encode) ++
          [63, 61]) = [openWordB ++ base64Encode c ++ [63, 61]] := by
        simp only [List.map_cons, List.map_nil, joinSep]
        exact splitNL_of_no10 _ hno10_line1
      rw [hs]
      refine ⟨?_, ?_⟩
      · intro l hl
        simp only [List.mem_singleton] at hl
        subst hl
        exact ⟨by omega, List.suffix_append _ _⟩
      · intro l hl
        simp only [List.head?_cons, Option.some.injEq] at hl
        subst hl
        omega
    · have ihr := ih fun x hx => hlen x (by simp [hx])
      have hsplit : openWordB ++ joinSep foldedSepB ((c :: c1 :: cs').map
          base64Encode) ++ [63, 61] =
          (openWordB ++ base64Encode c ++ [63, 61]) ++ 10 ::
            (32 :: (openWordB ++ joinSep foldedSepB ((c1 :: cs').map
              base64Encode) ++ [63, 61])) := by
        simp only [List.map_cons, joinSep, foldedSepB]
        simp
      rcases htail : splitNL (openWordB ++ joinSep foldedSepB ((c1 :: cs').map
          base64Encode) ++ [63, 61]) with _ | ⟨p, ps⟩
      · exact absurd htail (splitNL_ne_nil _)
      · have hlines : splitNL (openWordB ++ joinSep foldedSepB ((c :: c1 :: cs').map
            base64Encode) ++ [63, 61]) =
            (openWordB ++ base64Encode c ++ [63, 61]) :: (32 :: p) :: ps := by
          rw [hsplit, splitNL_append_10 _ _ hno10_line1,
            splitNL_cons_ne10 32 _ (by decide) p ps htail]
        rw [hlines]
        have hp75 : p.length ≤ 75 := by
          refine ihr.2 p ?_
          rw [htail]
          rfl
        have hpfacts := ihr.1
        rw [htail] at hpfacts
        refine ⟨?_, ?_⟩
        · intro l hl
          rcases List.mem_cons.mp hl with hl | hl
          · subst hl
            exact ⟨by omega, List.suffix_append _ _⟩
          · rcases List.mem_cons.mp hl with hl | hl
            · subst hl
              have hpsuf : [63, 61] <:+ p := (hpfacts p (by simp)).2
              exact ⟨by simp only [List.length_cons]; omega,
                hpsuf.trans (List.suffix_cons 32 p)⟩
            · exact hpfacts l (by simp [hl])
        · intro l hl
          simp only [List.head?_cons, Option.some.injEq] at hl
          subst hl
          omega

theorem getLast?_append_pair (l : List Nat) (a b : Nat) :
    (l ++ [a, b]).getLast? = some b := by
  rw [show l ++ [a, b] = (l ++ [a]) ++ [b] by simp]
  exact List.getLast?_concat _

/-- C6 counterexample: for the non-empty input of one hundred `a` bytes,
`encodeMIMESubject` returns one hundred bytes on a single line - far
over any 75/76-byte fold threshold - because the mime encoder's
plain-ASCII fast path skips encoding and folding entirely. -/
theorem c6_counterexample :
    encodeMIMESubject (List.replicate 100 97) = List.replicate 100 97 ∧
      splitNL (List.replicate 100 97) = [List.replicate 100 97] ∧
      76 < (List.replicate 100 (97 : Nat)).length := by
  have h : encodeMIMESubject (List.replicate 100 97) =
      trimSuffixNL (replaceQE (List.replicate 100 97)) :=
    encodeMIMESubject_printable _ (by decide) (by decide)
  rw [h]
  refine ⟨by decide, by decide, by decide⟩

/-- C6 (amended): when the input actually needs encoding (some rune
outside printable ASCII and tab), the output of `encodeMIMESubject` is a
well-formed folded header value: every line ends with the `?=` closer
(so every line break sits immediately after a `?=` marker and none falls
mid-encoded-word), the first line is at most 75 bytes and every line at
most 76 bytes, and the output ends in `?=` rather than a line break. -/
theorem c6_folded_shape (s : List Nat) (h : needsEncoding s = true) :
    (∀ l ∈ splitNL (encodeMIMESubject s), l.length ≤ 76 ∧ [63, 61] <:+ l) ∧
      (∀ l, (splitNL (encodeMIMESubject s)).head? = some l → l.length ≤ 75) ∧
      (encodeMIMESubject s).getLast? = some 61 := by
  rw [encodeMIMESubject_encoded s h]
  refine ⟨(lines_of_joined (chunksOf s) (chunksOf_len s)).1,
    (lines_of_joined (chunksOf s) (chunksOf_len s)).2, ?_⟩
  rw [show openWordB ++ joinSep foldedSepB ((chunksOf s).map base64Encode) ++
      [63, 61] = (openWordB ++ joinSep foldedSepB ((chunksOf s).map
      base64Encode)) ++ [63, 61] by simp]
  exact getLast?_append_pair _ 63 61

theorem c6_folded_shape_witness :
    needsEncoding [195, 164] = true ∧
      ((∀ l ∈ splitNL (encodeMIMESubject [195, 164]),
          l.length ≤ 76 ∧ [63, 61] <:+ l) ∧
        (∀ l, (splitNL (encodeMIMESubject [195, 164])).head? = some l →
          l.length ≤ 75) ∧
        (encodeMIMESubject [195, 164]).getLast? = some 61) :=
  ⟨by simp [needsEncoding, decodeRune],
    c6_folded_shape _ (by simp [needsEncoding, decodeRune])⟩

theorem b64Val_b64Index (x : Nat) (h : x < 64) : b64Val (b64Index x) = x := by
  unfold b64Index b64Val
  split_ifs <;> omega

/-- Standard base64 decoding undoes standard base64 encoding on byte
strings (every byte below 256). -/
theorem base64_roundtrip (bs : List Nat) (hb : ∀ b ∈ bs, b < 256) :
    base64Decode (base64Encode bs) = bs := by
  induction bs using base64Encode.induct with
  | case1 => rfl
  | case2 a =>
    have ha : a < 256 := hb a (by simp)
    have h1 := b64Val_b64Index (a / 4) (by omega)
    have h2 := b64Val_b64Index (a % 4 * 16) (by omega)
    simp [base64Encode, base64Decode, h1, h2]
    omega
  | case3 a b =>
    have ha : a < 256 := hb a (by simp)
    have hbb : b < 256 := hb b (by simp)
    have h1 := b64Val_b64Index (a / 4) (by omega)
    have h2 := b64Val_b64Index (a % 4 * 16 + b / 16) (by omega)
    have h3 := b64Val_b64Index (b % 16 * 4) (by omega)
    simp [base64Encode, base64Decode, h1, h2, h3, b64Index_ne_61 _]
    constructor <;> omega
  | case4 a b c rest ih =>
    have ha : a < 256 := hb a (by simp)
    have hbb : b < 256 := hb b (by simp)
    have hc : c < 256 := hb c (by simp)
    have h1 := b64Val_b64Index (a / 4) (by omega)
    have h2 := b64Val_b64Index (a % 4 * 16 + b / 16) (by omega)
    have h3 := b64Val_b64Index (b % 16 * 4 + c / 64) (by omega)
    have h4 := b64Val_b64Index (c % 64) (by omega)
    have hrest := ih fun x hx => hb x (by simp [hx])
    simp [base64Encode, base64Decode, h1, h2, h3, h4, hrest, b64Index_ne_61 _]
    refine ⟨by omega, by omega, by omega⟩

theorem parseUntilQE_no63 (w : List Nat) :
    ∀ (t : List Nat), (∀ x ∈ w, x ≠ 63) →
      parseUntilQE (w ++ 63 :: 61 :: t) = some (w, t) := by
  induction w with
  | nil => intro t _; simp [parseUntilQE]
  | cons x w ih =>
    intro t hx
    have hx63 : x ≠ 63 := hx x (by simp)
    have hw : ∀ y ∈ w, y ≠ 63 := fun y hy => hx y (by simp [hy])
    rcases w with _ | ⟨y, w'⟩
    · simp [parseUntilQE, hx63]
    · rw [show (x :: y :: w') ++ 63 :: 61 :: t = x :: y :: (w' ++ 63 :: 61 :: t)
        from rfl, parseUntilQE, if_neg (by tauto),
        show y :: (w' ++ 63 :: 61 :: t) = (y :: w') ++ 63 :: 61 :: t from rfl,
        ih t hw]

theorem isB64_of_b64 (c : List Nat) : isB64 (base64Encode c) = true := by
  unfold isB64
  rw [base64Encode_length]
  simp [encodedLen, Nat.mul_mod_left, List.all_eq_true.mpr (base64Encode_mem c)]

theorem decodeBWord_on_word (w t : List Nat) (hw : ∀ x ∈ w, isB64Byte x = true)
    (hl : w.length % 4 = 0) :
    decodeBWord (openWordB ++ w ++ 63 :: 61 :: t) = some (base64Decode w, t) := by
  unfold decodeBWord
  rw [List.append_assoc,
    if_pos (isPrefixOf_self_append openWordB (w ++ 63 :: 61 :: t)),
    show (10 : Nat) = openWordB.length from rfl, List.drop_left,
    parseUntilQE_no63 w t (fun x hx => isB64Byte_ne_63 x (hw x hx)),
    Option.some_bind]
  rw [if_pos (by
    unfold isB64
    simp [hl, List.all_eq_true.mpr hw])]

theorem decodeHeader_nil : decodeHeader [] = [] := by
  simp [decodeHeader]

theorem decodeHeader_cons_none (b : Nat) (rest : List Nat)
    (h : decodeBWord (b :: rest) = none) :
    decodeHeader (b :: rest) = b :: decodeHeader rest := by
  simp only [decodeHeader]
  split <;> simp_all

theorem decodeHeader_cons_some (b : Nat) (rest : List Nat)
    (p : List Nat × List Nat) (h : decodeBWord (b :: rest) = some p) :
    decodeHeader (b :: rest) = p.1 ++ decodeHeader
      (if p.2.dropWhile isWS ≠ [] ∧ (decodeBWord (p.2.dropWhile isWS)).isSome then
        p.2.dropWhile isWS else p.2) := by
  simp only [decodeHeader]
  split <;> simp_all

theorem decodeHeader_at_word (w t : List Nat)
    (hw : ∀ x ∈ w, isB64Byte x = true) (hl : w.length % 4 = 0) :
    decodeHeader (openWordB ++ w ++ 63 :: 61 :: t) =
      base64Decode w ++ decodeHeader
        (if t.dropWhile isWS ≠ [] ∧ (decodeBWord (t.dropWhile isWS)).isSome then
          t.dropWhile isWS else t) := by
  have hword := decodeBWord_on_word w t hw hl
  exact decodeHeader_cons_some 61
    (63 :: 85 :: 84 :: 70 :: 45 :: 56 :: 63 :: 66 :: 63 :: (w ++ 63 :: 61 :: t))
    (base64Decode w, t) hword

theorem joined_as_word (c1 : List Nat) (cs' : List (List Nat)) :
    ∃ t2, joinSep foldedSepB ((c1 :: cs').map base64Encode) ++ [63, 61] =
      base64Encode c1 ++ 63 :: 61 :: t2 := by
  rcases cs' with _ | ⟨c2, cs''⟩
  · exact ⟨[], by simp [joinSep]⟩
  · refine ⟨10 :: 32 :: (openWordB ++ joinSep foldedSepB ((c2 :: cs'').map
      base64Encode) ++ [63, 61]), ?_⟩
    simp [joinSep, foldedSepB]

/-- The modelled standard decoder recovers, from the folded output shape,
the concatenation of the base64-decoded words. -/
theorem decodeHeader_joined (cs : List (List Nat)) (hne : cs ≠ []) :
    decodeHeader (openWordB ++ joinSep foldedSepB (cs.map base64Encode) ++
        [63, 61]) =
      catList (cs.map fun c => base64Decode (base64Encode c)) := by
  induction cs with
  | nil => exact absurd rfl hne
  | cons c cs ih =>
    rcases cs with _ | ⟨c1, cs'⟩
    · rw [show openWordB ++ joinSep foldedSepB ([c].map base64Encode) ++
          [63, 61] = openWordB ++ base64Encode c ++ 63 :: 61 :: [] by
        simp [joinSep]]
      rw [decodeHeader_at_word _ _ (base64Encode_mem c) (by
        rw [base64Encode_length]; simp [encodedLen, Nat.mul_mod_left])]
      simp [decodeHeader_nil, catList]
    · have hshape : openWordB ++ joinSep foldedSepB ((c :: c1 :: cs').map
          base64Encode) ++ [63, 61] =
          openWordB ++ base64Encode c ++ 63 :: 61 ::
            (10 :: 32 :: (openWordB ++ joinSep foldedSepB ((c1 :: cs').map
              base64Encode) ++ [63, 61])) := by
        simp [joinSep, foldedSepB]
      rw [hshape, decodeHeader_at_word _ _ (base64Encode_mem c) (by
        rw [base64Encode_length]; simp [encodedLen, Nat.mul_mod_left])]
      have hdrop : (10 :: 32 :: (openWordB ++ joinSep foldedSepB ((c1 :: cs').map
          base64Encode) ++ [63, 61])).dropWhile isWS =
          openWordB ++ joinSep foldedSepB ((c1 :: cs').map base64Encode) ++
            [63, 61] := by
        simp [openWordB, List.dropWhile, isWS]
      rw [hdrop]
      rcases joined_as_word c1 cs' with ⟨t2, ht2⟩
      have hsome : (decodeBWord (openWordB ++ joinSep foldedSepB ((c1 :: cs').map
          base64Encode) ++ [63, 61])).isSome := by
        rw [show openWordB ++ joinSep foldedSepB ((c1 :: cs').map base64Encode) ++
            [63, 61] = openWordB ++ (joinSep foldedSepB ((c1 :: cs').map
              base64Encode) ++ [63, 61]) by simp, ht2, ← List.append_assoc]
        rw [decodeBWord_on_word _ _ (base64Encode_mem c1) (by
          rw [base64Encode_length]; simp [encodedLen, Nat.mul_mod_left])]
        rfl
      rw [if_pos ⟨by simp, hsome⟩, ih (by simp)]
      simp [catList]

theorem bSplit_ne_nil (s cur : List Nat) : bSplit s cur ≠ [] := by
  induction s, cur using bSplit.induct with
  | case1 cur => simp [bSplit]
  | case2 b rest cur hguard ih => rw [bSplit, if_pos hguard]; exact ih
  | case3 b rest cur hguard ih => rw [bSplit, if_neg hguard]; simp

theorem bSplit_flatten (s cur : List Nat) :
    catList (bSplit s cur) = cur ++ s := by
  induction s, cur using bSplit.induct with
  | case1 cur => simp [bSplit, catList]
  | case2 b rest cur hguard ih =>
    rw [bSplit, if_pos hguard, ih, List.append_assoc, List.take_append_drop]
  | case3 b rest cur hguard ih =>
    rw [bSplit, if_neg hguard]
    show cur ++ catList (bSplit _ _) = cur ++ (b :: rest)
    rw [ih, List.take_append_drop]

theorem chunksOf_flatten (s : List Nat) : catList (chunksOf s) = s := by
  unfold chunksOf
  split_ifs
  · simp [catList]
  · exact bSplit_flatten s []

theorem chunksOf_ne_nil (s : List Nat) : chunksOf s ≠ [] := by
  unfold chunksOf
  split_ifs
  · simp
  · exact bSplit_ne_nil s []

theorem mem_catList (x : Nat) (ls : List (List Nat)) :
    x ∈ catList ls ↔ ∃ l ∈ ls, x ∈ l := by
  induction ls with
  | nil => simp [catList]
  | cons l ls ih => simp [catList, ih]

theorem mem_of_mem_chunk (s c : List Nat) (b : Nat) (hc : c ∈ chunksOf s)
    (hb : b ∈ c) : b ∈ s := by
  have : b ∈ catList (chunksOf s) := (mem_catList b _).mpr ⟨c, hc, hb⟩
  rwa [chunksOf_flatten] at this

/-- C5 counterexample: for the printable-ASCII input `a?=b`, the mime
encoder's fast path returns the text unencoded, `encodeMIMESubject`
inserts a newline after the embedded `?=`, and a standard MIME-header
decoder leaves the result as ordinary text - so decoding does not
recover the original input. -/
theorem c5_counterexample :
    decodeHeader (encodeMIMESubject [97, 63, 61, 98]) ≠ [97, 63, 61, 98] := by
  have h1 : encodeMIMESubject [97, 63, 61, 98] = [97, 63, 61, 10, 98] := by
    rw [encodeMIMESubject_printable _ (by decide) (by decide)]
    decide
  rw [h1,
    decodeHeader_cons_none _ _ (by decide),
    decodeHeader_cons_none _ _ (by decide),
    decodeHeader_cons_none _ _ (by decide),
    decodeHeader_cons_none _ _ (by decide),
    decodeHeader_cons_none _ _ (by decide),
    decodeHeader_nil]
  decide

/-- C5 (amended): for every input that the underlying mime encoder
actually encodes (some rune outside printable ASCII and tab, i.e.
`needsEncoding`), applying the standard MIME encoded-word decoder to the
output of `encodeMIMESubject` recovers the original input exactly. -/
theorem c5_roundtrip (s : List Nat) (h : needsEncoding s = true)
    (hb : ∀ b ∈ s, b < 256) :
    decodeHeader (encodeMIMESubject s) = s := by
  rw [encodeMIMESubject_encoded s h,
    decodeHeader_joined (chunksOf s) (chunksOf_ne_nil s)]
  have hmap : (chunksOf s).map (fun c => base64Decode (base64Encode c)) =
      (chunksOf s).map id := by
    refine List.map_congr_left fun c hc => ?_
    exact base64_roundtrip c fun b hbc => hb b (mem_of_mem_chunk s c b hc hbc)
  rw [hmap, List.map_id]
  exact chunksOf_flatten s

theorem c5_roundtrip_witness :
    needsEncoding [195, 164] = true ∧ (∀ b ∈ [195, 164], b < 256) ∧
      decodeHeader (encodeMIMESubject [195, 164]) = [195, 164] :=
  ⟨by simp [needsEncoding, decodeRune], by decide,
    c5_roundtrip _ (by simp [needsEncoding, decodeRune]) (by decide)⟩

end QuickMail
